import Mathlib

/-!
Shallow embedding of `src/phone_format.py` (repository Jmikelittle/teleformat).

The script builds a mapping from ISO region code to a record of phone-format
fields, enriches it with Government-of-Canada columns fetched over HTTP,
sorts it by (numeric country code, ISO code), and writes it to JSON.

Records are Python dicts whose fields appear and are overwritten dynamically,
so a record is embedded as an insertion-ordered association list from field
name to a JSON-like value; the table itself is an insertion-ordered
association list from ISO code to record, mirroring Python dict semantics
(assignment to an existing key keeps its position, a new key is appended).
-/

/-- A JSON-like scalar value stored in a record field. -/
inductive Value
  | str (s : String)
  | num (n : Nat)
deriving DecidableEq

/-- A record of the table: a Python dict from field name to value. -/
abbrev Rec := List (String × Value)

/-- The table built by the script: a Python dict from ISO code to record. -/
abbrev Table := List (String × Rec)

/-- Python dict assignment `d[k] = v` (for both the records and the outer
table): overwrite in place if the key exists, otherwise append at the end. -/
def dictInsert {α : Type} (k : String) (v : α) (d : List (String × α)) : List (String × α) :=
  if d.any (fun p => p.1 == k) then d.map (fun p => if p.1 = k then (k, v) else p)
  else d ++ [(k, v)]

/-- In-place mutation of the record stored at key `k`
(`phone_format_data[k][f] = v` style access). -/
def updateAt (k : String) (f : Rec → Rec) (d : Table) : Table :=
  d.map (fun p => if p.1 = k then (p.1, f p.2) else p)

/-- Field access `data[k]` when a string is expected (total, with a junk
default that the pipeline never reaches because the field is always
present). -/
def getStr (r : Rec) (k : String) : String :=
  match List.lookup k r with
  | some (Value.str s) => s
  | _ => ""

/-- Field access `data[k]` when an integer is expected (same junk-default
convention). -/
def getNat (r : Rec) (k : String) : Nat :=
  match List.lookup k r with
  | some (Value.num n) => n
  | _ => 0

/-- The `general_desc` of a region's metadata: only its `possible_length`
list is consulted by the script. -/
structure GeneralDesc where
  possible_length : List Nat
deriving DecidableEq

/-- Per-region metadata as consumed by the script: the country calling code
and the optional general description. -/
structure Metadata where
  country_code : Nat
  general_desc : Option GeneralDesc
deriving DecidableEq

/-- Python `max` over a list of ints (the script only calls it on a list it
has already checked to be non-empty). -/
def listMax : List Nat → Nat
  | [] => 0
  | x :: xs => xs.foldl max x

/-- Lines 31-37: the synthesized example number, `"+<cc> "` followed by an
`X` pattern chosen by length tier. -/
def mkExampleFormat (cc : String) (ml : Nat) : String :=
  let base := "+" ++ cc ++ " "
  if ml ≤ 4 then base ++ String.mk (List.replicate ml 'X')
  else if ml ≤ 7 then base ++ "XXX " ++ String.mk (List.replicate (ml - 3) 'X')
  else base ++ "XXX XXX " ++ String.mk (List.replicate (ml - 6) 'X')

/-- The three-field record stored for a region at harvest time (lines 40-44). -/
def baseRec (cc : String) (ml : Nat) : Rec :=
  [("country_code", Value.str cc), ("max_length", Value.num ml),
   ("example_format", Value.str (mkExampleFormat cc ml))]

/-- Loop body of lines 17-47 for one region: if metadata, its general
description and its possible-length list are all present and non-empty,
store the derived record; otherwise skip the region. -/
def harvestStep (acc : Table) (p : String × Option Metadata) : Table :=
  match p.2 with
  | some m =>
    match m.general_desc with
    | some gd =>
      if gd.possible_length ≠ [] then
        dictInsert p.1 (baseRec (toString m.country_code) (listMax gd.possible_length)) acc
      else acc
    | none => acc
  | none => acc

/-- Lines 7-49, `get_up_to_date_phone_formats`: fold the per-region step over
all supported regions. A region is an ISO code with its optional metadata. -/
def harvest (regions : List (String × Option Metadata)) : Table :=
  regions.foldl harvestStep []

/-- The regex string of lines 69-70: `"^\\+" + cc + "\\d" + "<ml>"` wrapped
in braces and `"$"`, exactly as the f-string renders it. -/
def mkRegex (cc : String) (ml : Nat) : String :=
  "^\\+" ++ cc ++ "\\d\x7b" ++ toString ml ++ "\x7d$"

/-- Body of the lines 62-70 loop for one entry keyed by `iso`: add `ISO`,
`total_max_digits` and `regex` to the record. -/
def deriveFields (iso : String) (r : Rec) : Rec :=
  let r1 := dictInsert "ISO" (Value.str iso) r
  let r2 := dictInsert "total_max_digits"
    (Value.num ((getStr r1 "country_code").length + getNat r1 "max_length")) r1
  dictInsert "regex" (Value.str (mkRegex (getStr r2 "country_code") (getNat r2 "max_length"))) r2

/-- Lines 62-70: the loop that adds the three derived fields to every
harvested record (in-place mutation of each dict value). -/
def addDerivedFields (d : Table) : Table :=
  d.map (fun p => (p.1, deriveFields p.1 p.2))

/-- The record shape every entry has after `addDerivedFields`: the three
harvested fields followed by the three derived ones. -/
def fullRec (cc : String) (ml : Nat) (iso : String) : Rec :=
  baseRec cc ml ++
    [("ISO", Value.str iso), ("total_max_digits", Value.num (cc.length + ml)),
     ("regex", Value.str (mkRegex cc ml))]

/-- The fetched Government-of-Canada dataset: each field contributes its
(optional) `id`, each record is a positional array of cells. -/
structure GcData where
  fields : List (Option String)
  records : List (List Value)
deriving DecidableEq

/-- Lines 83-97: scan the `fields` list, recording the positional index of
each of the four needed column ids (a later duplicate id overwrites). -/
def scanIndices (fields : List (Option String)) :
    Option Nat × Option Nat × Option Nat × Option Nat :=
  fields.enum.foldl
    (fun acc p =>
      if p.2 = some "ISO_ALPHA_2_CD" then (some p.1, acc.2.1, acc.2.2.1, acc.2.2.2)
      else if p.2 = some "GC_ID" then (acc.1, some p.1, acc.2.2.1, acc.2.2.2)
      else if p.2 = some "GC_NM_AB_EN" then (acc.1, acc.2.1, some p.1, acc.2.2.2)
      else if p.2 = some "GC_NM_AB_FR" then (acc.1, acc.2.1, acc.2.2.1, some p.1)
      else acc)
    (none, none, none, none)

/-- Lines 106-116: if the ISO column index was not found by id and the
records list is non-empty, fall back to hardcoded indices 19, 0, 4, 5
for all four columns. -/
def resolveIndices (gc : GcData) : Option Nat × Option Nat × Option Nat × Option Nat :=
  let s := scanIndices gc.fields
  if s.1 = none ∧ gc.records ≠ [] then (some 19, some 0, some 4, some 5) else s

/-- Lines 124-126: the three successive dict assignments that attach the
Government-of-Canada columns of fetched record `r` to a table record. -/
def gcSet (iId iEn iFr : Nat) (r : List Value) (rec0 : Rec) : Rec :=
  dictInsert "GC_NM_AB_FR" (r.getD iFr (Value.str ""))
    (dictInsert "GC_NM_AB_EN" (r.getD iEn (Value.str ""))
      (dictInsert "GC_ID" (r.getD iId (Value.str "")) rec0))

/-- Lines 120-127 for one fetched record: if the record is long enough to
cover all four column indices and its ISO cell is a truthy string that is a
key of the table, attach the three GC fields to that record (a non-string
ISO cell never equals a string dict key, so nothing is attached for it). -/
def mergeRecord (iIso iId iEn iFr : Nat) (d : Table) (r : List Value) : Table :=
  if max (max (max iIso iId) iEn) iFr < r.length then
    match r.getD iIso (Value.str "") with
    | Value.str s =>
      if s ≠ "" ∧ d.any (fun p => p.1 == s) then
        updateAt s (gcSet iId iEn iFr r) d
      else d
    | Value.num _ => d
  else d

/-- Lines 118-127: when all four column indices are available, fold the merge
over every fetched record; otherwise leave the table untouched. -/
def mergeGc (gc : GcData) (d : Table) : Table :=
  match resolveIndices gc with
  | (some iIso, some iId, some iEn, some iFr) =>
    gc.records.foldl (mergeRecord iIso iId iEn iFr) d
  | _ => d

/-- Lines 73-134: the whole enrichment stage. `none` models any stage-level
failure (connection error, non-2xx status, JSON decode error), all caught by
the `except` handler before any mutation, leaving the table unchanged. -/
def enrich (resp : Option GcData) (d : Table) : Table :=
  match resp with
  | none => d
  | some gc => mergeGc gc d

/-- Python `int` on the decimal strings the pipeline produces as country
codes (the `sorted(..., key=int)` sort key). -/
def strToNat (s : String) : Nat :=
  s.data.foldl (fun a c => a * 10 + (c.toNat - 48)) 0

/-- The country-code string of a table entry. -/
def ccOf (p : String × Rec) : String :=
  getStr p.2 "country_code"

/-- Lines 144-149: the keys of `country_code_groups` in insertion order
(first occurrence of each country code). -/
def groupKeys (d : Table) : List String :=
  d.foldl (fun ks p => if ccOf p ∈ ks then ks else ks ++ [ccOf p]) []

/-- The group of a country code: the entries carrying it, in table order
(the list `country_code_groups[cc]` accumulates by appending). -/
def groupOf (d : Table) (cc : String) : Table :=
  d.filter (fun p => ccOf p = cc)

/-- Python string comparison `a <= b`: lexicographic by character code
points (this agrees with the standard order on `String`, proved below). -/
def charsLe : List Char → List Char → Bool
  | [], _ => true
  | _ :: _, [] => false
  | a :: as, b :: bs => if a = b then charsLe as bs else decide (a < b)

/-- The comparison `sorted(country_code_groups.keys(), key=int)` sorts by:
numeric value of the country-code string, ascending. -/
def ccLe (a b : String) : Prop :=
  strToNat a ≤ strToNat b

instance : DecidableRel ccLe :=
  fun a b => inferInstanceAs (Decidable (strToNat a ≤ strToNat b))

/-- The comparison `sorted(group, key=lambda x: x[0])` sorts by: ISO key,
ascending in Python's lexicographic string order. -/
def isoLe (x y : String × Rec) : Prop :=
  charsLe x.1.data y.1.data = true

instance : DecidableRel isoLe :=
  fun x y => inferInstanceAs (Decidable (charsLe x.1.data y.1.data = true))

/-- Lines 152-154: the entries in emission order: group keys sorted
numerically, and inside each group the entries sorted by ISO code.
Python's `sorted` is a stable ascending sort; in this program both calls
sort lists whose sort keys are pairwise distinct (group keys are collected
without duplicates, and ISO keys within a group come from dict keys), so
tie order never matters and insertion sort models `sorted` exactly where
the program's behavior is observable. -/
def sortedEntries (d : Table) : List (String × Rec) :=
  (((groupKeys d).insertionSort ccLe).map (fun k => (groupOf d k).insertionSort isoLe)).flatten

/-- Lines 141-155: rebuild the mapping by inserting the sorted entries in
emission order. -/
def sortData (d : Table) : Table :=
  (sortedEntries d).foldl (fun acc p => dictInsert p.1 p.2 acc) []

/-- The full pipeline: harvest, add derived fields, enrich (best effort),
sort. The sorted table is what line 164 serializes. -/
def finalOutput (regions : List (String × Option Metadata)) (resp : Option GcData) : Table :=
  sortData (enrich resp (addDerivedFields (harvest regions)))

/-- Number of occurrences of the mask character in a string. -/
def countX (s : String) : Nat :=
  s.data.count 'X'

/-- The three GC field lookups of a record, as one tuple. -/
def gcTriple (rec0 : Rec) : Option Value × Option Value × Option Value :=
  (rec0.lookup "GC_ID", rec0.lookup "GC_NM_AB_EN", rec0.lookup "GC_NM_AB_FR")

/-- A fetched record matches ISO code `iso` when its length covers all four
column indices and its ISO cell holds exactly the string `iso`. -/
def matchesR (iIso iId iEn iFr : Nat) (r : List Value) (iso : String) : Prop :=
  max (max (max iIso iId) iEn) iFr < r.length ∧ r.getD iIso (Value.str "") = Value.str iso

/-- A concrete region list realizing the spec's sorting scenario:
US and CA share calling code 1, GB has calling code 44. -/
def exRegions : List (String × Option Metadata) :=
  [("US", some ⟨1, some ⟨[10]⟩⟩), ("CA", some ⟨1, some ⟨[7, 10]⟩⟩),
   ("GB", some ⟨44, some ⟨[9, 10]⟩⟩)]

/-- A concrete fetched dataset: the four columns in positions 0-3, one row
matching CA and one row matching no harvested region. -/
def exGc : GcData :=
  ⟨[some "ISO_ALPHA_2_CD", some "GC_ID", some "GC_NM_AB_EN", some "GC_NM_AB_FR"],
   [[Value.str "CA", Value.num 77, Value.str "Canada", Value.str "Canada"],
    [Value.str "ZZ", Value.num 1, Value.str "z", Value.str "z"]]⟩

/-- The GC-enrichment contract of claim C3, for a response whose four
column indices resolved to `iIso`, `iId`, `iEn`, `iFr`: (1) a record of the
enriched table carries some GC field exactly when some fetched record long
enough to cover the four indices has that record's ISO code in its ISO
column, and in that case all three GC fields are set together from such a
fetched record's columns; (2) enrichment adds no new keys; (3) after a
stage-level failure (no response) no record carries any GC field. -/
def gcEnrichmentSpec (regions : List (String × Option Metadata)) (gc : GcData)
    (iIso iId iEn iFr : Nat) : Prop :=
  (∀ iso rec1,
    (enrich (some gc) (addDerivedFields (harvest regions))).lookup iso = some rec1 →
    ((((rec1.lookup "GC_ID").isSome ∨ (rec1.lookup "GC_NM_AB_EN").isSome ∨
        (rec1.lookup "GC_NM_AB_FR").isSome) ↔
      ∃ r ∈ gc.records, matchesR iIso iId iEn iFr r iso) ∧
    (((rec1.lookup "GC_ID").isSome ∨ (rec1.lookup "GC_NM_AB_EN").isSome ∨
        (rec1.lookup "GC_NM_AB_FR").isSome) →
      ∃ r ∈ gc.records, matchesR iIso iId iEn iFr r iso ∧
        rec1.lookup "GC_ID" = some (r.getD iId (Value.str "")) ∧
        rec1.lookup "GC_NM_AB_EN" = some (r.getD iEn (Value.str "")) ∧
        rec1.lookup "GC_NM_AB_FR" = some (r.getD iFr (Value.str ""))))) ∧
  (enrich (some gc) (addDerivedFields (harvest regions))).map Prod.fst =
    (addDerivedFields (harvest regions)).map Prod.fst ∧
  (∀ iso rec1,
    (enrich none (addDerivedFields (harvest regions))).lookup iso = some rec1 →
    rec1.lookup "GC_ID" = none ∧ rec1.lookup "GC_NM_AB_EN" = none ∧
      rec1.lookup "GC_NM_AB_FR" = none)

/-- The field-presence contract of claim C2 for one output entry `p` under
enrichment response `resp`: all six base fields are present, and a GC field
can be present only when a response arrived, its four column indices
resolved, and some fetched row long enough to cover them has the entry's
ISO code in its ISO column. -/
def fieldPresenceSpec (resp : Option GcData) (p : String × Rec) : Prop :=
  ((p.2.lookup "country_code").isSome ∧ (p.2.lookup "max_length").isSome ∧
    (p.2.lookup "example_format").isSome ∧ (p.2.lookup "ISO").isSome ∧
    (p.2.lookup "total_max_digits").isSome ∧ (p.2.lookup "regex").isSome) ∧
  (((p.2.lookup "GC_ID").isSome ∨ (p.2.lookup "GC_NM_AB_EN").isSome ∨
    (p.2.lookup "GC_NM_AB_FR").isSome) →
    ∃ gc, resp = some gc ∧ ∃ iIso iId iEn iFr,
      resolveIndices gc = (some iIso, some iId, some iEn, some iFr) ∧
      ∃ r ∈ gc.records, matchesR iIso iId iEn iFr r p.1)

/-- The harvesting contract of claim C8: a region whose metadata, general
description and possible-length list are all present and non-empty gets a
record whose max_length field is the maximum of that list; a region where
any of these is absent or empty gets no record. -/
def harvestMaxSpec (regions : List (String × Option Metadata)) : Prop :=
  (∀ r m gd, (r, some m) ∈ regions → m.general_desc = some gd →
    gd.possible_length ≠ [] →
    ∃ rec M, (harvest regions).lookup r = some rec ∧
      rec.lookup "max_length" = some (Value.num M) ∧
      M ∈ gd.possible_length ∧ ∀ x ∈ gd.possible_length, x ≤ M) ∧
  (∀ r md, (r, md) ∈ regions →
    (md = none ∨ ∃ m, md = some m ∧ (m.general_desc = none ∨
      ∃ gd, m.general_desc = some gd ∧ gd.possible_length = [])) →
    (harvest regions).lookup r = none)

/-! ### Dictionary lemmas -/

theorem lookup_cons_ite {α : Type} (a qk : String) (qv : α) (d : List (String × α)) :
    ((qk, qv) :: d).lookup a = if a = qk then some qv else d.lookup a := by
  by_cases h : a = qk
  · rw [List.lookup_cons, if_pos h]
    have hb : (a == qk) = true := beq_iff_eq.mpr h
    rw [hb]
  · rw [List.lookup_cons, if_neg h]
    have hb : (a == qk) = false := beq_eq_false_iff_ne.mpr h
    rw [hb]

theorem mem_dictInsert {α : Type} {k : String} {v : α} {d : List (String × α)}
    {p : String × α} (h : p ∈ dictInsert k v d) : p ∈ d ∨ p = (k, v) := by
  unfold dictInsert at h
  split at h
  · rcases List.mem_map.mp h with ⟨q, hq, he⟩
    by_cases hk : q.1 = k
    · rw [if_pos hk] at he
      exact Or.inr he.symm
    · rw [if_neg hk] at he
      exact Or.inl (he ▸ hq)
  · rcases List.mem_append.mp h with h1 | h1
    · exact Or.inl h1
    · rcases List.mem_singleton.mp h1 with rfl
      exact Or.inr rfl

theorem lookup_replace_self {α : Type} (k : String) (v : α) :
    ∀ d : List (String × α),
      (d.map (fun p => if p.1 = k then (k, v) else p)).lookup k =
        (d.lookup k).map (fun _ => v) := by
  intro d
  induction d with
  | nil => simp
  | cons q d ih =>
    obtain ⟨qk, qv⟩ := q
    by_cases hk : qk = k
    · subst hk
      simp [lookup_cons_ite]
    · simp only [List.map_cons, if_neg hk, lookup_cons_ite]
      have hk' : ¬(k = qk) := fun hh => hk hh.symm
      rw [if_neg hk', if_neg hk', ih]

theorem lookup_replace_other {α : Type} {k' k : String} (h : k' ≠ k) (v : α) :
    ∀ d : List (String × α),
      (d.map (fun p => if p.1 = k then (k, v) else p)).lookup k' = d.lookup k' := by
  intro d
  induction d with
  | nil => simp
  | cons q d ih =>
    obtain ⟨qk, qv⟩ := q
    by_cases hk : qk = k
    · subst hk
      simp [lookup_cons_ite, h, ih]
    · simp only [List.map_cons, if_neg hk, lookup_cons_ite]
      by_cases hq : k' = qk
      · rw [if_pos hq, if_pos hq]
      · rw [if_neg hq, if_neg hq, ih]

theorem lookup_dictInsert_self {α : Type} (k : String) (v : α) (d : List (String × α)) :
    (dictInsert k v d).lookup k = some v := by
  unfold dictInsert
  split
  · rename_i hany
    rw [lookup_replace_self]
    rcases List.any_eq_true.mp hany with ⟨p, hp, hpk⟩
    have hs : (d.lookup k).isSome := by
      rw [List.lookup_isSome_iff]
      exact ⟨p, hp, by simpa using (beq_iff_eq.mp hpk).symm⟩
    rcases Option.isSome_iff_exists.mp hs with ⟨b, hb⟩
    simp [hb]
  · rename_i hany
    have hnone : d.lookup k = none := by
      rw [List.lookup_eq_none_iff]
      intro p hp
      by_contra hc
      exact hany (List.any_eq_true.mpr
        ⟨p, hp, by simpa using (by simpa using hc : k = p.1).symm⟩)
    rw [List.lookup_append, hnone, lookup_cons_ite, if_pos rfl]
    rfl

theorem lookup_dictInsert_other {α : Type} {k' k : String} (h : k' ≠ k) (v : α)
    (d : List (String × α)) : (dictInsert k v d).lookup k' = d.lookup k' := by
  unfold dictInsert
  split
  · exact lookup_replace_other h v d
  · rw [List.lookup_append, lookup_cons_ite, if_neg h]
    cases d.lookup k' <;> rfl

theorem map_fst_dictInsert_of_mem {α : Type} {k : String} {d : List (String × α)}
    (hk : d.any (fun p => p.1 == k) = true) (v : α) :
    (dictInsert k v d).map Prod.fst = d.map Prod.fst := by
  unfold dictInsert
  rw [if_pos hk, List.map_map]
  apply List.map_congr_left
  intro p _
  by_cases hp : p.1 = k
  · simp [hp]
  · simp [hp]

/-! ### updateAt lemmas -/

theorem map_fst_updateAt (k : String) (f : Rec → Rec) (d : Table) :
    (updateAt k f d).map Prod.fst = d.map Prod.fst := by
  unfold updateAt
  rw [List.map_map]
  apply List.map_congr_left
  intro p _
  by_cases hp : p.1 = k
  · simp [hp]
  · simp [hp]

theorem lookup_updateAt_self (k : String) (f : Rec → Rec) (d : Table) :
    (updateAt k f d).lookup k = (d.lookup k).map f := by
  unfold updateAt
  induction d with
  | nil => simp
  | cons q d ih =>
    obtain ⟨qk, qv⟩ := q
    by_cases hk : qk = k
    · subst hk
      simp [lookup_cons_ite]
    · simp only [List.map_cons, if_neg hk, lookup_cons_ite]
      have hk' : ¬(k = qk) := fun hh => hk hh.symm
      rw [if_neg hk', if_neg hk', ih]

theorem lookup_updateAt_other {k' k : String} (h : k' ≠ k) (f : Rec → Rec) (d : Table) :
    (updateAt k f d).lookup k' = d.lookup k' := by
  unfold updateAt
  induction d with
  | nil => simp
  | cons q d ih =>
    obtain ⟨qk, qv⟩ := q
    by_cases hk : qk = k
    · subst hk
      simp [lookup_cons_ite, h, ih]
    · simp only [List.map_cons, if_neg hk, lookup_cons_ite]
      by_cases hq : k' = qk
      · rw [if_pos hq, if_pos hq]
      · rw [if_neg hq, if_neg hq, ih]

theorem mem_updateAt {k : String} {f : Rec → Rec} {d : Table} {p : String × Rec}
    (h : p ∈ updateAt k f d) :
    ∃ q ∈ d, p.1 = q.1 ∧ (p.2 = q.2 ∨ (q.1 = k ∧ p.2 = f q.2)) := by
  unfold updateAt at h
  rcases List.mem_map.mp h with ⟨q, hq, he⟩
  by_cases hk : q.1 = k
  · rw [if_pos hk] at he
    exact ⟨q, hq, by rw [← he], Or.inr ⟨hk, by rw [← he]⟩⟩
  · rw [if_neg hk] at he
    exact ⟨q, hq, by rw [← he], Or.inl (by rw [← he])⟩

/-! ### Maximum of a list -/

theorem le_foldl_max (xs : List Nat) :
    ∀ a : Nat, a ≤ xs.foldl max a ∧ ∀ x ∈ xs, x ≤ xs.foldl max a := by
  induction xs with
  | nil => simp
  | cons y ys ih =>
    intro a
    refine ⟨le_trans (Nat.le_max_left a y) (ih (max a y)).1, ?_⟩
    intro x hx
    rcases List.mem_cons.mp hx with rfl | hx
    · exact le_trans (Nat.le_max_right a x) (ih (max a x)).1
    · exact (ih (max a y)).2 x hx

theorem foldl_max_mem (xs : List Nat) :
    ∀ a : Nat, xs.foldl max a = a ∨ xs.foldl max a ∈ xs := by
  induction xs with
  | nil => intro a; exact Or.inl rfl
  | cons y ys ih =>
    intro a
    rcases ih (max a y) with h | h
    · rcases max_choice a y with hm | hm
      · rw [List.foldl_cons, h, hm]; exact Or.inl rfl
      · rw [List.foldl_cons, h, hm]; exact Or.inr (List.mem_cons_self _ _)
    · exact Or.inr (List.mem_cons_of_mem _ h)

theorem listMax_spec {l : List Nat} (h : l ≠ []) :
    listMax l ∈ l ∧ ∀ x ∈ l, x ≤ listMax l := by
  match l with
  | x :: xs =>
    simp only [listMax]
    constructor
    · rcases foldl_max_mem xs x with h1 | h1
      · rw [h1]; exact List.mem_cons_self _ _
      · exact List.mem_cons_of_mem _ h1
    · intro y hy
      rcases List.mem_cons.mp hy with rfl | hy
      · exact (le_foldl_max xs y).1
      · exact (le_foldl_max xs x).2 y hy

/-! ### Harvest lemmas -/

theorem harvestStep_lookup_other {r : String} (q : String × Option Metadata) (acc : Table)
    (h : r ≠ q.1) : (harvestStep acc q).lookup r = acc.lookup r := by
  unfold harvestStep
  split
  · split
    · split
      · exact lookup_dictInsert_other h _ _
      · rfl
    · rfl
  · rfl

theorem foldl_harvestStep_lookup_notmem {r : String} :
    ∀ (l : List (String × Option Metadata)) (acc : Table), r ∉ l.map Prod.fst →
      (l.foldl harvestStep acc).lookup r = acc.lookup r := by
  intro l
  induction l with
  | nil => intro acc _; rfl
  | cons q l ih =>
    intro acc hmem
    rw [List.foldl_cons]
    have h1 : r ∉ l.map Prod.fst := fun hc => hmem (by simp [List.map_cons, hc])
    have h2 : r ≠ q.1 := fun hc => hmem (by simp [List.map_cons, hc])
    rw [ih _ h1, harvestStep_lookup_other q acc h2]

theorem foldl_harvestStep_lookup_good :
    ∀ (l : List (String × Option Metadata)), (l.map Prod.fst).Nodup →
      ∀ {r : String} {m : Metadata} {gd : GeneralDesc}, (r, some m) ∈ l →
      m.general_desc = some gd → gd.possible_length ≠ [] →
      ∀ acc, (l.foldl harvestStep acc).lookup r =
        some (baseRec (toString m.country_code) (listMax gd.possible_length)) := by
  intro l
  induction l with
  | nil =>
    intro _ r m gd hmem
    exact absurd hmem (List.not_mem_nil _)
  | cons q l ih =>
    intro hnd r m gd hmem hgd hpl acc
    rw [List.foldl_cons]
    rw [List.map_cons] at hnd
    have hnd' := List.nodup_cons.mp hnd
    rcases List.mem_cons.mp hmem with heq | hmem'
    · have hq : q = (r, some m) := heq.symm
      subst hq
      have hr : r ∉ l.map Prod.fst := hnd'.1
      rw [foldl_harvestStep_lookup_notmem l _ hr]
      show (harvestStep acc (r, some m)).lookup r = _
      unfold harvestStep
      simp only [hgd]
      rw [if_pos hpl]
      exact lookup_dictInsert_self _ _ _
    · exact ih hnd'.2 hmem' hgd hpl _

theorem harvestStep_bad {q : String × Option Metadata} (acc : Table)
    (hbad : q.2 = none ∨ ∃ m, q.2 = some m ∧
      (m.general_desc = none ∨
        ∃ gd, m.general_desc = some gd ∧ gd.possible_length = [])) :
    harvestStep acc q = acc := by
  unfold harvestStep
  rcases hbad with h | ⟨m, hm, h⟩
  · simp only [h]
  · rcases h with h | ⟨gd, hgd, hpl⟩
    · simp only [hm, h]
    · simp only [hm, hgd]
      rw [if_neg (fun hc => hc hpl)]

theorem foldl_harvestStep_lookup_bad :
    ∀ (l : List (String × Option Metadata)), (l.map Prod.fst).Nodup →
      ∀ {r : String} {md : Option Metadata}, (r, md) ∈ l →
      (md = none ∨ ∃ m, md = some m ∧
        (m.general_desc = none ∨
          ∃ gd, m.general_desc = some gd ∧ gd.possible_length = [])) →
      ∀ acc, (l.foldl harvestStep acc).lookup r = acc.lookup r := by
  intro l
  induction l with
  | nil =>
    intro _ r md hmem
    exact absurd hmem (List.not_mem_nil _)
  | cons q l ih =>
    intro hnd r md hmem hbad acc
    rw [List.foldl_cons]
    rw [List.map_cons] at hnd
    have hnd' := List.nodup_cons.mp hnd
    rcases List.mem_cons.mp hmem with heq | hmem'
    · have hq : q = (r, md) := heq.symm
      subst hq
      rw [foldl_harvestStep_lookup_notmem l _ hnd'.1, harvestStep_bad acc hbad]
    · have hr : r ∈ l.map Prod.fst := List.mem_map.mpr ⟨(r, md), hmem', rfl⟩
      have hq1 : r ≠ q.1 := fun hc => hnd'.1 (hc ▸ hr)
      rw [ih hnd'.2 hmem' hbad _, harvestStep_lookup_other q acc hq1]

theorem foldl_harvestStep_mem :
    ∀ (l : List (String × Option Metadata)) (acc : Table) (p : String × Rec),
      p ∈ l.foldl harvestStep acc →
      p ∈ acc ∨ ∃ m gd, (p.1, some m) ∈ l ∧ m.general_desc = some gd ∧
        gd.possible_length ≠ [] ∧
        p.2 = baseRec (toString m.country_code) (listMax gd.possible_length) := by
  intro l
  induction l with
  | nil => intro acc p h; exact Or.inl h
  | cons q l ih =>
    intro acc p h
    rw [List.foldl_cons] at h
    rcases ih _ _ h with h1 | ⟨m, gd, hmem, hgd, hpl, hshape⟩
    · unfold harvestStep at h1
      rcases hq2 : q.2 with _ | m
      · simp only [hq2] at h1
        exact Or.inl h1
      · simp only [hq2] at h1
        rcases hgd : m.general_desc with _ | gd
        · simp only [hgd] at h1
          exact Or.inl h1
        · simp only [hgd] at h1
          by_cases hpl : gd.possible_length ≠ []
          · rw [if_pos hpl] at h1
            rcases mem_dictInsert h1 with h2 | h2
            · exact Or.inl h2
            · right
              refine ⟨m, gd, ?_, hgd, hpl, by rw [h2]⟩
              have hqq : (p.1, some m) = q := by
                rw [h2, ← hq2]
              exact hqq ▸ List.mem_cons_self _ _
          · rw [if_neg hpl] at h1
            exact Or.inl h1
    · exact Or.inr ⟨m, gd, List.mem_cons_of_mem _ hmem, hgd, hpl, hshape⟩

theorem harvest_mem {regions : List (String × Option Metadata)} {p : String × Rec}
    (h : p ∈ harvest regions) :
    ∃ m gd, (p.1, some m) ∈ regions ∧ m.general_desc = some gd ∧
      gd.possible_length ≠ [] ∧
      p.2 = baseRec (toString m.country_code) (listMax gd.possible_length) := by
  rcases foldl_harvestStep_mem regions [] p h with h1 | h1
  · exact absurd h1 (List.not_mem_nil _)
  · exact h1

/-! ### Derived-field lemmas -/

theorem deriveFields_baseRec (iso cc : String) (ml : Nat) :
    deriveFields iso (baseRec cc ml) = fullRec cc ml iso := rfl

theorem mem_addDerivedFields {d : Table} {p : String × Rec} (h : p ∈ addDerivedFields d) :
    ∃ q ∈ d, p = (q.1, deriveFields q.1 q.2) := by
  unfold addDerivedFields at h
  rcases List.mem_map.mp h with ⟨q, hq, he⟩
  exact ⟨q, hq, he.symm⟩

theorem addDerived_mem_shape {regions : List (String × Option Metadata)} {p : String × Rec}
    (h : p ∈ addDerivedFields (harvest regions)) :
    ∃ (n : Nat) (ml : Nat), p.2 = fullRec (toString n) ml p.1 := by
  rcases mem_addDerivedFields h with ⟨q, hq, he⟩
  rcases harvest_mem hq with ⟨m, gd, _, _, _, hshape⟩
  refine ⟨m.country_code, listMax gd.possible_length, ?_⟩
  rw [he]
  show deriveFields q.1 q.2 = _
  rw [hshape, deriveFields_baseRec]

theorem lookup_addDerivedFields (k : String) (d : Table) :
    (addDerivedFields d).lookup k = (d.lookup k).map (deriveFields k) := by
  unfold addDerivedFields
  induction d with
  | nil => simp
  | cons q d ih =>
    obtain ⟨qk, qv⟩ := q
    by_cases hk : k = qk
    · subst hk
      simp [lookup_cons_ite]
    · simp only [List.map_cons, lookup_cons_ite, if_neg hk, ih]

theorem map_fst_addDerivedFields (d : Table) :
    (addDerivedFields d).map Prod.fst = d.map Prod.fst := by
  unfold addDerivedFields
  rw [List.map_map]
  rfl

/-! ### Enrichment lemmas -/

theorem lookup_isSome_iff_mem_fst {α : Type} {k : String} {d : List (String × α)} :
    (d.lookup k).isSome ↔ k ∈ d.map Prod.fst := by
  rw [List.lookup_isSome_iff]
  constructor
  · rintro ⟨p, hp, hb⟩
    exact List.mem_map.mpr ⟨p, hp, (beq_iff_eq.mp hb).symm⟩
  · intro h
    rcases List.mem_map.mp h with ⟨p, hp, he⟩
    exact ⟨p, hp, beq_iff_eq.mpr he.symm⟩

theorem mem_of_lookup_eq_some {α : Type} {k : String} {b : α} {d : List (String × α)}
    (h : d.lookup k = some b) : (k, b) ∈ d := by
  rcases List.lookup_eq_some_iff.mp h with ⟨l₁, l₂, rfl, _⟩
  exact List.mem_append.mpr (Or.inr (List.mem_cons_self _ _))

theorem lookup_gcSet_id (iId iEn iFr : Nat) (r : List Value) (rec0 : Rec) :
    (gcSet iId iEn iFr r rec0).lookup "GC_ID" = some (r.getD iId (Value.str "")) := by
  unfold gcSet
  rw [lookup_dictInsert_other (by decide) _ _, lookup_dictInsert_other (by decide) _ _,
    lookup_dictInsert_self]

theorem lookup_gcSet_en (iId iEn iFr : Nat) (r : List Value) (rec0 : Rec) :
    (gcSet iId iEn iFr r rec0).lookup "GC_NM_AB_EN" = some (r.getD iEn (Value.str "")) := by
  unfold gcSet
  rw [lookup_dictInsert_other (by decide) _ _, lookup_dictInsert_self]

theorem lookup_gcSet_fr (iId iEn iFr : Nat) (r : List Value) (rec0 : Rec) :
    (gcSet iId iEn iFr r rec0).lookup "GC_NM_AB_FR" = some (r.getD iFr (Value.str "")) := by
  unfold gcSet
  rw [lookup_dictInsert_self]

theorem lookup_gcSet_other {k : String} (h1 : k ≠ "GC_ID") (h2 : k ≠ "GC_NM_AB_EN")
    (h3 : k ≠ "GC_NM_AB_FR") (iId iEn iFr : Nat) (r : List Value) (rec0 : Rec) :
    (gcSet iId iEn iFr r rec0).lookup k = rec0.lookup k := by
  unfold gcSet
  rw [lookup_dictInsert_other h3 _ _, lookup_dictInsert_other h2 _ _,
    lookup_dictInsert_other h1 _ _]

theorem gcTriple_gcSet (iId iEn iFr : Nat) (r : List Value) (rec0 : Rec) :
    gcTriple (gcSet iId iEn iFr r rec0) =
      (some (r.getD iId (Value.str "")), some (r.getD iEn (Value.str "")),
        some (r.getD iFr (Value.str ""))) := by
  unfold gcTriple
  rw [lookup_gcSet_id, lookup_gcSet_en, lookup_gcSet_fr]

theorem gcTriple_fullRec (cc : String) (ml : Nat) (iso : String) :
    gcTriple (fullRec cc ml iso) = (none, none, none) := rfl

theorem mergeRecord_map_fst (iIso iId iEn iFr : Nat) (d : Table) (r : List Value) :
    (mergeRecord iIso iId iEn iFr d r).map Prod.fst = d.map Prod.fst := by
  unfold mergeRecord
  split
  · split
    · split
      · exact map_fst_updateAt _ _ _
      · rfl
    · rfl
  · rfl

theorem foldl_mergeRecord_map_fst (iIso iId iEn iFr : Nat) :
    ∀ (rs : List (List Value)) (d : Table),
      (rs.foldl (mergeRecord iIso iId iEn iFr) d).map Prod.fst = d.map Prod.fst := by
  intro rs
  induction rs with
  | nil => intro d; rfl
  | cons r rs ih =>
    intro d
    rw [List.foldl_cons, ih, mergeRecord_map_fst]

theorem mergeGc_map_fst (gc : GcData) (d : Table) :
    (mergeGc gc d).map Prod.fst = d.map Prod.fst := by
  unfold mergeGc
  split
  · exact foldl_mergeRecord_map_fst _ _ _ _ _ _
  · rfl

theorem enrich_map_fst (resp : Option GcData) (d : Table) :
    (enrich resp d).map Prod.fst = d.map Prod.fst := by
  cases resp with
  | none => rfl
  | some gc => exact mergeGc_map_fst gc d

theorem mem_mergeRecord {iIso iId iEn iFr : Nat} {d : Table} {r : List Value}
    {p : String × Rec} (h : p ∈ mergeRecord iIso iId iEn iFr d r) :
    ∃ q ∈ d, p.1 = q.1 ∧ (p.2 = q.2 ∨
      (matchesR iIso iId iEn iFr r p.1 ∧ p.2 = gcSet iId iEn iFr r q.2)) := by
  unfold mergeRecord at h
  by_cases hlen : max (max (max iIso iId) iEn) iFr < r.length
  · rw [if_pos hlen] at h
    rcases hcell : r.getD iIso (Value.str "") with s | n
    · simp only [hcell] at h
      by_cases hcond : s ≠ "" ∧ d.any (fun p => p.1 == s) = true
      · rw [if_pos hcond] at h
        rcases mem_updateAt h with ⟨q, hq, hpq, hor⟩
        rcases hor with he | ⟨hqs, he⟩
        · exact ⟨q, hq, hpq, Or.inl he⟩
        · refine ⟨q, hq, hpq, Or.inr ⟨⟨hlen, ?_⟩, he⟩⟩
          rw [hcell, hpq, hqs]
      · rw [if_neg hcond] at h
        exact ⟨p, h, rfl, Or.inl rfl⟩
    · simp only [hcell] at h
      exact ⟨p, h, rfl, Or.inl rfl⟩
  · rw [if_neg hlen] at h
    exact ⟨p, h, rfl, Or.inl rfl⟩

theorem foldl_mergeRecord_mem {iIso iId iEn iFr : Nat} :
    ∀ (rs : List (List Value)) (d : Table) (p : String × Rec),
      p ∈ rs.foldl (mergeRecord iIso iId iEn iFr) d →
      ∃ q ∈ d, p.1 = q.1 ∧
        ∀ k, k ≠ "GC_ID" → k ≠ "GC_NM_AB_EN" → k ≠ "GC_NM_AB_FR" →
          p.2.lookup k = q.2.lookup k := by
  intro rs
  induction rs with
  | nil => intro d p h; exact ⟨p, h, rfl, fun k _ _ _ => rfl⟩
  | cons r rs ih =>
    intro d p h
    rw [List.foldl_cons] at h
    rcases ih _ _ h with ⟨q, hq, hpq, hlook⟩
    rcases mem_mergeRecord hq with ⟨q', hq', hqq', hor⟩
    refine ⟨q', hq', hpq.trans hqq', ?_⟩
    intro k h1 h2 h3
    rcases hor with he | ⟨_, he⟩
    · rw [hlook k h1 h2 h3, he]
    · rw [hlook k h1 h2 h3, he, lookup_gcSet_other h1 h2 h3]

theorem foldl_mergeRecord_gc_origin {iIso iId iEn iFr : Nat} :
    ∀ (rs : List (List Value)) (d : Table) (p : String × Rec),
      p ∈ rs.foldl (mergeRecord iIso iId iEn iFr) d →
      ((p.2.lookup "GC_ID").isSome ∨ (p.2.lookup "GC_NM_AB_EN").isSome ∨
        (p.2.lookup "GC_NM_AB_FR").isSome) →
      (∃ q ∈ d, q.1 = p.1 ∧ ((q.2.lookup "GC_ID").isSome ∨
        (q.2.lookup "GC_NM_AB_EN").isSome ∨ (q.2.lookup "GC_NM_AB_FR").isSome)) ∨
      ∃ r ∈ rs, matchesR iIso iId iEn iFr r p.1 := by
  intro rs
  induction rs with
  | nil => intro d p h hgc; exact Or.inl ⟨p, h, rfl, hgc⟩
  | cons r rs ih =>
    intro d p h hgc
    rw [List.foldl_cons] at h
    rcases ih _ _ h hgc with h1 | h1
    · rcases h1 with ⟨q, hq, hq1, hqgc⟩
      rcases mem_mergeRecord hq with ⟨q', hq', hqq', hor⟩
      rcases hor with he | ⟨hm, he⟩
      · exact Or.inl ⟨q', hq', hqq' ▸ hq1, he ▸ hqgc⟩
      · exact Or.inr ⟨r, List.mem_cons_self _ _, hq1 ▸ hm⟩
    · rcases h1 with ⟨r', hr', hm⟩
      exact Or.inr ⟨r', List.mem_cons_of_mem _ hr', hm⟩

theorem mergeRecord_lookup_match {iIso iId iEn iFr : Nat} {iso : String} {d : Table}
    {r : List Value} {rec0 : Rec} (hiso : iso ≠ "") (h : d.lookup iso = some rec0)
    (hm : matchesR iIso iId iEn iFr r iso) :
    (mergeRecord iIso iId iEn iFr d r).lookup iso = some (gcSet iId iEn iFr r rec0) := by
  unfold mergeRecord
  rcases hm with ⟨hlen, hcell⟩
  rw [if_pos hlen]
  simp only [hcell]
  have hany : d.any (fun p => p.1 == iso) = true := by
    have hs : (d.lookup iso).isSome := by rw [h]; rfl
    rcases List.lookup_isSome_iff.mp hs with ⟨p, hp, hb⟩
    exact List.any_eq_true.mpr ⟨p, hp, beq_iff_eq.mpr (beq_iff_eq.mp hb).symm⟩
  rw [if_pos ⟨hiso, hany⟩, lookup_updateAt_self, h]
  rfl

theorem mergeRecord_lookup_nomatch {iIso iId iEn iFr : Nat} {iso : String} {d : Table}
    {r : List Value} (hm : ¬ matchesR iIso iId iEn iFr r iso) :
    (mergeRecord iIso iId iEn iFr d r).lookup iso = d.lookup iso := by
  unfold mergeRecord
  by_cases hlen : max (max (max iIso iId) iEn) iFr < r.length
  · rw [if_pos hlen]
    rcases hcell : r.getD iIso (Value.str "") with s | n
    · simp only [hcell]
      by_cases hcond : s ≠ "" ∧ d.any (fun p => p.1 == s) = true
      · rw [if_pos hcond]
        have hs : s ≠ iso := fun hc => hm ⟨hlen, by rw [hcell, hc]⟩
        exact lookup_updateAt_other (fun hc => hs hc.symm) _ _
      · rw [if_neg hcond]
    · simp only [hcell]
  · rw [if_neg hlen]

theorem foldl_mergeRecord_lookup {iIso iId iEn iFr : Nat} {iso : String} (hiso : iso ≠ "") :
    ∀ (rs : List (List Value)) (d : Table) (rec0 : Rec),
      d.lookup iso = some rec0 →
      ∃ rec1, (rs.foldl (mergeRecord iIso iId iEn iFr) d).lookup iso = some rec1 ∧
        ((gcTriple rec1 = gcTriple rec0 ∧ ∀ r ∈ rs, ¬ matchesR iIso iId iEn iFr r iso) ∨
          (∃ r ∈ rs, matchesR iIso iId iEn iFr r iso ∧
            gcTriple rec1 = (some (r.getD iId (Value.str "")),
              some (r.getD iEn (Value.str "")), some (r.getD iFr (Value.str ""))))) := by
  intro rs
  induction rs with
  | nil =>
    intro d rec0 h
    exact ⟨rec0, h, Or.inl ⟨rfl, by simp⟩⟩
  | cons r rs ih =>
    intro d rec0 h
    rw [List.foldl_cons]
    by_cases hm : matchesR iIso iId iEn iFr r iso
    · rcases ih _ _ (mergeRecord_lookup_match hiso h hm) with ⟨rec1, hl, hcase⟩
      refine ⟨rec1, hl, Or.inr ?_⟩
      rcases hcase with ⟨heq, _⟩ | ⟨r', hr', hm', heq⟩
      · exact ⟨r, List.mem_cons_self _ _, hm, heq.trans (gcTriple_gcSet _ _ _ _ _)⟩
      · exact ⟨r', List.mem_cons_of_mem _ hr', hm', heq⟩
    · have hstep : (mergeRecord iIso iId iEn iFr d r).lookup iso = some rec0 := by
        rw [mergeRecord_lookup_nomatch hm, h]
      rcases ih _ _ hstep with ⟨rec1, hl, hcase⟩
      refine ⟨rec1, hl, ?_⟩
      rcases hcase with ⟨heq, hnone⟩ | ⟨r', hr', hm', heq⟩
      · refine Or.inl ⟨heq, ?_⟩
        intro r'' hr''
        rcases List.mem_cons.mp hr'' with rfl | hr''
        · exact hm
        · exact hnone _ hr''
      · exact Or.inr ⟨r', List.mem_cons_of_mem _ hr', hm', heq⟩

/-! ### The character comparison agrees with the standard string order -/

theorem charsLe_iff : ∀ as bs : List Char, charsLe as bs = true ↔ ¬ bs < as := by
  intro as
  induction as with
  | nil =>
    intro bs
    show true = true ↔ ¬ bs < []
    constructor
    · intro _ h
      cases h
    · intro _
      rfl
  | cons a as ih =>
    intro bs
    cases bs with
    | nil =>
      show false = true ↔ ¬ ([] : List Char) < a :: as
      constructor
      · intro h
        exact absurd h Bool.false_ne_true
      · intro h
        exact absurd List.Lex.nil h
    | cons b bs =>
      show (if a = b then charsLe as bs else decide (a < b)) = true ↔ ¬ b :: bs < a :: as
      by_cases hab : a = b
      · subst hab
        rw [if_pos rfl, ih bs]
        constructor
        · intro h hc
          cases hc with
          | cons h3 => exact h h3
          | rel h1 => exact absurd h1 (lt_irrefl a)
        · intro h hc
          exact h (List.Lex.cons hc)
      · rw [if_neg hab]
        by_cases hlt : a < b
        · constructor
          · intro _ hc
            cases hc with
            | cons h3 => exact absurd rfl hab
            | rel h1 => exact absurd h1 (asymm hlt)
          · intro _
            exact decide_eq_true hlt
        · have hba : b < a := by
            rcases lt_trichotomy a b with h | h | h
            · exact absurd h hlt
            · exact absurd h hab
            · exact h
          constructor
          · intro h
            exact absurd (of_decide_eq_true h) hlt
          · intro h
            exact absurd (List.Lex.rel hba) h

theorem charsLe_iff_le (a b : String) : charsLe a.data b.data = true ↔ a ≤ b := by
  rw [charsLe_iff]
  constructor
  · intro h
    by_contra hc
    rw [not_le] at hc
    exact h (String.lt_iff_toList_lt.mp hc)
  · intro h hc
    exact absurd (String.lt_iff_toList_lt.mpr hc) (not_lt.mpr h)

theorem isoLe_iff (x y : String × Rec) : isoLe x y ↔ x.1 ≤ y.1 :=
  charsLe_iff_le x.1 y.1

/-! ### Counting mask characters -/

theorem digitChar_isDigit {n : Nat} (h : n < 10) : (Nat.digitChar n).isDigit = true := by
  interval_cases n <;> decide

theorem toDigitsCore_digits :
    ∀ (fuel n : Nat) (acc : List Char), (∀ c ∈ acc, c.isDigit = true) →
      ∀ c ∈ Nat.toDigitsCore 10 fuel n acc, c.isDigit = true := by
  intro fuel
  induction fuel with
  | zero => intro n acc hacc c hc; exact hacc c hc
  | succ fuel ih =>
    intro n acc hacc c hc
    have hd : ∀ c' ∈ Nat.digitChar (n % 10) :: acc, c'.isDigit = true := by
      intro c' hc'
      rcases List.mem_cons.mp hc' with rfl | hc'
      · exact digitChar_isDigit (Nat.mod_lt n (by norm_num))
      · exact hacc c' hc'
    simp only [Nat.toDigitsCore] at hc
    split at hc
    · exact hd c hc
    · exact ih _ _ hd c hc

theorem repr_all_digits (n : Nat) : ∀ c ∈ (Nat.repr n).data, c.isDigit = true := by
  intro c hc
  have he : (Nat.repr n).data = Nat.toDigitsCore 10 (n + 1) n [] := rfl
  rw [he] at hc
  exact toDigitsCore_digits (n + 1) n [] (by intro c' hc'; cases hc') c hc

theorem countX_toString (n : Nat) : countX (toString n) = 0 := by
  unfold countX
  rw [List.count_eq_zero]
  intro hc
  have hd := repr_all_digits n 'X' hc
  exact absurd hd (by decide)

theorem countX_append (a b : String) : countX (a ++ b) = countX a + countX b := by
  unfold countX
  show (a.data ++ b.data).count 'X' = _
  exact List.count_append _ _ _

theorem countX_mk_replicate (n : Nat) : countX (String.mk (List.replicate n 'X')) = n := by
  unfold countX
  show (List.replicate n 'X').count 'X' = n
  rw [List.count_replicate]
  simp

theorem countX_mkExampleFormat {cc : String} (hcc : countX cc = 0) (ml : Nat) :
    countX (mkExampleFormat cc ml) = ml := by
  have hbase : countX ("+" ++ cc ++ " ") = 0 := by
    rw [countX_append, countX_append, hcc]
    rfl
  unfold mkExampleFormat
  by_cases h4 : ml ≤ 4
  · rw [if_pos h4, countX_append, hbase, countX_mk_replicate]
    omega
  · rw [if_neg h4]
    by_cases h7 : ml ≤ 7
    · rw [if_pos h7, countX_append, countX_append, hbase, countX_mk_replicate]
      have h3 : countX "XXX " = 3 := rfl
      rw [h3]
      omega
    · rw [if_neg h7, countX_append, countX_append, hbase, countX_mk_replicate]
      have h6 : countX "XXX XXX " = 6 := rfl
      rw [h6]
      omega

/-! ### Sorting lemmas -/

theorem foldl_groupKeys_mem :
    ∀ (d : Table) (ks : List String) (k : String),
      k ∈ d.foldl (fun ks p => if ccOf p ∈ ks then ks else ks ++ [ccOf p]) ks ↔
        k ∈ ks ∨ ∃ p ∈ d, ccOf p = k := by
  intro d
  induction d with
  | nil => intro ks k; simp
  | cons q d ih =>
    intro ks k
    rw [List.foldl_cons]
    by_cases hq : ccOf q ∈ ks
    · rw [if_pos hq, ih]
      constructor
      · rintro (h | ⟨p, hp, he⟩)
        · exact Or.inl h
        · exact Or.inr ⟨p, List.mem_cons_of_mem _ hp, he⟩
      · rintro (h | ⟨p, hp, he⟩)
        · exact Or.inl h
        · rcases List.mem_cons.mp hp with rfl | hp
          · exact Or.inl (he ▸ hq)
          · exact Or.inr ⟨p, hp, he⟩
    · rw [if_neg hq, ih]
      constructor
      · rintro (h | ⟨p, hp, he⟩)
        · rcases List.mem_append.mp h with h | h
          · exact Or.inl h
          · exact Or.inr ⟨q, List.mem_cons_self _ _, (List.mem_singleton.mp h).symm⟩
        · exact Or.inr ⟨p, List.mem_cons_of_mem _ hp, he⟩
      · rintro (h | ⟨p, hp, he⟩)
        · exact Or.inl (List.mem_append.mpr (Or.inl h))
        · rcases List.mem_cons.mp hp with rfl | hp
          · exact Or.inl (List.mem_append.mpr (Or.inr (List.mem_singleton.mpr he.symm)))
          · exact Or.inr ⟨p, hp, he⟩

theorem mem_groupKeys {d : Table} {k : String} :
    k ∈ groupKeys d ↔ ∃ p ∈ d, ccOf p = k := by
  unfold groupKeys
  rw [foldl_groupKeys_mem]
  simp

theorem foldl_groupKeys_nodup :
    ∀ (d : Table) (ks : List String), ks.Nodup →
      (d.foldl (fun ks p => if ccOf p ∈ ks then ks else ks ++ [ccOf p]) ks).Nodup := by
  intro d
  induction d with
  | nil => intro ks h; exact h
  | cons q d ih =>
    intro ks h
    rw [List.foldl_cons]
    by_cases hq : ccOf q ∈ ks
    · rw [if_pos hq]; exact ih _ h
    · rw [if_neg hq]
      refine ih _ ?_
      rw [List.nodup_append]
      exact ⟨h, List.nodup_singleton _,
        fun a ha hb => hq ((List.mem_singleton.mp hb) ▸ ha)⟩

theorem groupKeys_nodup (d : Table) : (groupKeys d).Nodup :=
  foldl_groupKeys_nodup d [] List.nodup_nil

theorem mem_groupOf {d : Table} {k : String} {p : String × Rec} :
    p ∈ groupOf d k ↔ p ∈ d ∧ ccOf p = k := by
  unfold groupOf
  rw [List.mem_filter]
  simp

theorem groupOf_sublist_fst (d : Table) (k : String) :
    ((groupOf d k).map Prod.fst).Sublist (d.map Prod.fst) :=
  (List.filter_sublist d).map _

theorem sortedEntries_mem {d : Table} {p : String × Rec} (h : p ∈ sortedEntries d) :
    p ∈ d := by
  unfold sortedEntries at h
  rcases List.mem_flatten.mp h with ⟨l, hl, hpl⟩
  rcases List.mem_map.mp hl with ⟨k, _, rfl⟩
  have hmem := (List.perm_insertionSort isoLe (groupOf d k)).mem_iff.mp hpl
  exact (mem_groupOf.mp hmem).1

theorem sortedEntries_spec {d : Table} (hnd : (d.map Prod.fst).Nodup)
    (hinj : ∀ p ∈ d, ∀ q ∈ d, strToNat (ccOf p) = strToNat (ccOf q) → ccOf p = ccOf q) :
    (sortedEntries d).Pairwise (fun a b =>
      (strToNat (ccOf a) < strToNat (ccOf b) ∨ (ccOf a = ccOf b ∧ a.1 < b.1)) ∧
        a.1 ≠ b.1) := by
  letI instT : IsTotal String ccLe := ⟨fun a b => Nat.le_total _ _⟩
  letI instR : IsTrans String ccLe := ⟨fun a b c hab hbc => Nat.le_trans hab hbc⟩
  letI instT2 : IsTotal (String × Rec) isoLe := ⟨fun x y => by
    rcases le_total x.1 y.1 with h | h
    · exact Or.inl ((isoLe_iff x y).mpr h)
    · exact Or.inr ((isoLe_iff y x).mpr h)⟩
  letI instR2 : IsTrans (String × Rec) isoLe := ⟨fun x y z hxy hyz =>
    (isoLe_iff x z).mpr (le_trans ((isoLe_iff x y).mp hxy) ((isoLe_iff y z).mp hyz))⟩
  have hsortk : ((groupKeys d).insertionSort ccLe).Pairwise ccLe :=
    List.sorted_insertionSort ccLe (groupKeys d)
  have hndk : ((groupKeys d).insertionSort ccLe).Nodup :=
    (List.perm_insertionSort ccLe (groupKeys d)).nodup_iff.mpr (groupKeys_nodup d)
  have hgmem : ∀ (k : String) (x : String × Rec),
      x ∈ (groupOf d k).insertionSort isoLe ↔ (x ∈ d ∧ ccOf x = k) := by
    intro k x
    rw [(List.perm_insertionSort isoLe (groupOf d k)).mem_iff, mem_groupOf]
  have hgnd : ∀ k : String, (((groupOf d k).insertionSort isoLe).map Prod.fst).Nodup := by
    intro k
    exact ((List.perm_insertionSort isoLe (groupOf d k)).map Prod.fst).nodup_iff.mpr
      (List.Nodup.sublist (groupOf_sublist_fst d k) hnd)
  have hwithin : ∀ k : String, ((groupOf d k).insertionSort isoLe).Pairwise
      (fun a b => (strToNat (ccOf a) < strToNat (ccOf b) ∨
        (ccOf a = ccOf b ∧ a.1 < b.1)) ∧ a.1 ≠ b.1) := by
    intro k
    have hne : ((groupOf d k).insertionSort isoLe).Pairwise (fun a b => a.1 ≠ b.1) :=
      List.pairwise_map.mp (hgnd k)
    refine ((List.sorted_insertionSort isoLe (groupOf d k)).and hne).imp_of_mem ?_
    intro a b ha hb hab
    rcases hab with ⟨hle, hne'⟩
    have hcca : ccOf a = k := ((hgmem k a).mp ha).2
    have hccb : ccOf b = k := ((hgmem k b).mp hb).2
    exact ⟨Or.inr ⟨hcca.trans hccb.symm,
      lt_of_le_of_ne ((isoLe_iff a b).mp hle) hne'⟩, hne'⟩
  have hacross : ((groupKeys d).insertionSort ccLe).Pairwise (fun k₁ k₂ =>
      ∀ x ∈ (groupOf d k₁).insertionSort isoLe,
        ∀ y ∈ (groupOf d k₂).insertionSort isoLe,
        (strToNat (ccOf x) < strToNat (ccOf y) ∨
          (ccOf x = ccOf y ∧ x.1 < y.1)) ∧ x.1 ≠ y.1) := by
    refine (hsortk.and hndk).imp ?_
    intro k₁ k₂ hk x hx y hy
    rcases hk with ⟨hle, hne⟩
    have hdx := (hgmem k₁ x).mp hx
    have hdy := (hgmem k₂ y).mp hy
    have hlt : strToNat k₁ < strToNat k₂ := by
      refine lt_of_le_of_ne hle ?_
      intro he
      refine hne ?_
      rw [← hdx.2, ← hdy.2]
      refine hinj x hdx.1 y hdy.1 ?_
      rw [hdx.2, hdy.2]
      exact he
    have hxy : x.1 ≠ y.1 := by
      intro he
      have hxeq : x = y := List.inj_on_of_nodup_map hnd hdx.1 hdy.1 he
      exact hne (hdx.2 ▸ hdy.2 ▸ (congrArg ccOf hxeq))
    refine ⟨Or.inl ?_, hxy⟩
    rw [hdx.2, hdy.2]
    exact hlt
  unfold sortedEntries
  rw [List.pairwise_flatten]
  constructor
  · intro l' hl'
    rcases List.mem_map.mp hl' with ⟨k, _, rfl⟩
    exact hwithin k
  · rw [List.pairwise_map]
    exact hacross

theorem sortedEntries_nodup_fst {d : Table} (hnd : (d.map Prod.fst).Nodup)
    (hinj : ∀ p ∈ d, ∀ q ∈ d, strToNat (ccOf p) = strToNat (ccOf q) → ccOf p = ccOf q) :
    ((sortedEntries d).map Prod.fst).Nodup :=
  List.pairwise_map.mpr ((sortedEntries_spec hnd hinj).imp (fun hab => hab.2))

theorem foldl_dictInsert_append :
    ∀ (l : List (String × Rec)) (acc : Table), (l.map Prod.fst).Nodup →
      (∀ p ∈ l, ∀ q ∈ acc, p.1 ≠ q.1) →
      l.foldl (fun acc p => dictInsert p.1 p.2 acc) acc = acc ++ l := by
  intro l
  induction l with
  | nil => intro acc _ _; simp
  | cons p l ih =>
    intro acc hnd hdisj
    rw [List.foldl_cons]
    rw [List.map_cons] at hnd
    have hnd' := List.nodup_cons.mp hnd
    have hnotin : acc.any (fun q => q.1 == p.1) = false := by
      rw [Bool.eq_false_iff]
      intro hc
      rcases List.any_eq_true.mp hc with ⟨q, hq, hb⟩
      exact hdisj p (List.mem_cons_self _ _) q hq (beq_iff_eq.mp hb).symm
    have hstep : dictInsert p.1 p.2 acc = acc ++ [p] := by
      unfold dictInsert
      rw [hnotin, if_neg (by simp)]
    have hdisj' : ∀ x ∈ l, ∀ q ∈ acc ++ [p], x.1 ≠ q.1 := by
      intro x hx q hq
      rcases List.mem_append.mp hq with hq | hq
      · exact hdisj x (List.mem_cons_of_mem _ hx) q hq
      · rcases List.mem_singleton.mp hq with rfl
        intro he
        exact hnd'.1 (List.mem_map.mpr ⟨x, hx, he⟩)
    rw [hstep, ih (acc ++ [p]) hnd'.2 hdisj', List.append_assoc]
    rfl

theorem mem_foldl_dictInsert :
    ∀ (l : List (String × Rec)) (acc : Table) (p : String × Rec),
      p ∈ l.foldl (fun acc q => dictInsert q.1 q.2 acc) acc → p ∈ acc ∨ p ∈ l := by
  intro l
  induction l with
  | nil => intro acc p h; exact Or.inl h
  | cons q l ih =>
    intro acc p h
    rw [List.foldl_cons] at h
    rcases ih _ _ h with h1 | h1
    · rcases mem_dictInsert h1 with h2 | h2
      · exact Or.inl h2
      · right
        rw [h2, Prod.mk.eta]
        exact List.mem_cons_self _ _
    · exact Or.inr (List.mem_cons_of_mem _ h1)

theorem mem_sortData {d : Table} {p : String × Rec} (h : p ∈ sortData d) : p ∈ d := by
  unfold sortData at h
  rcases mem_foldl_dictInsert _ _ _ h with h1 | h1
  · exact absurd h1 (List.not_mem_nil _)
  · exact sortedEntries_mem h1

theorem sortData_eq_sortedEntries {d : Table} (hnd : (d.map Prod.fst).Nodup)
    (hinj : ∀ p ∈ d, ∀ q ∈ d, strToNat (ccOf p) = strToNat (ccOf q) → ccOf p = ccOf q) :
    sortData d = sortedEntries d := by
  unfold sortData
  rw [foldl_dictInsert_append _ [] (sortedEntries_nodup_fst hnd hinj)
    (by intro x _ q hq; cases hq)]
  rfl

/-! ### Record-shape lookups and pipeline composition -/

theorem lookup_baseRec_cc (cc : String) (ml : Nat) :
    (baseRec cc ml).lookup "country_code" = some (Value.str cc) := rfl

theorem lookup_baseRec_ml (cc : String) (ml : Nat) :
    (baseRec cc ml).lookup "max_length" = some (Value.num ml) := rfl

theorem lookup_baseRec_exf (cc : String) (ml : Nat) :
    (baseRec cc ml).lookup "example_format" = some (Value.str (mkExampleFormat cc ml)) := rfl

theorem lookup_fullRec_cc (cc : String) (ml : Nat) (iso : String) :
    (fullRec cc ml iso).lookup "country_code" = some (Value.str cc) := rfl

theorem lookup_fullRec_ml (cc : String) (ml : Nat) (iso : String) :
    (fullRec cc ml iso).lookup "max_length" = some (Value.num ml) := rfl

theorem lookup_fullRec_exf (cc : String) (ml : Nat) (iso : String) :
    (fullRec cc ml iso).lookup "example_format" = some (Value.str (mkExampleFormat cc ml)) := rfl

theorem lookup_fullRec_iso (cc : String) (ml : Nat) (iso : String) :
    (fullRec cc ml iso).lookup "ISO" = some (Value.str iso) := rfl

theorem lookup_fullRec_tmd (cc : String) (ml : Nat) (iso : String) :
    (fullRec cc ml iso).lookup "total_max_digits" = some (Value.num (cc.length + ml)) := rfl

theorem lookup_fullRec_regex (cc : String) (ml : Nat) (iso : String) :
    (fullRec cc ml iso).lookup "regex" = some (Value.str (mkRegex cc ml)) := rfl

theorem lookup_fullRec_gc_id (cc : String) (ml : Nat) (iso : String) :
    (fullRec cc ml iso).lookup "GC_ID" = none := rfl

theorem lookup_fullRec_gc_en (cc : String) (ml : Nat) (iso : String) :
    (fullRec cc ml iso).lookup "GC_NM_AB_EN" = none := rfl

theorem lookup_fullRec_gc_fr (cc : String) (ml : Nat) (iso : String) :
    (fullRec cc ml iso).lookup "GC_NM_AB_FR" = none := rfl

theorem mem_enrich {resp : Option GcData} {d : Table} {p : String × Rec}
    (h : p ∈ enrich resp d) :
    ∃ q ∈ d, p.1 = q.1 ∧
      (∀ k, k ≠ "GC_ID" → k ≠ "GC_NM_AB_EN" → k ≠ "GC_NM_AB_FR" →
        p.2.lookup k = q.2.lookup k) ∧
      (((p.2.lookup "GC_ID").isSome ∨ (p.2.lookup "GC_NM_AB_EN").isSome ∨
        (p.2.lookup "GC_NM_AB_FR").isSome) →
        (∃ q' ∈ d, q'.1 = p.1 ∧ ((q'.2.lookup "GC_ID").isSome ∨
          (q'.2.lookup "GC_NM_AB_EN").isSome ∨ (q'.2.lookup "GC_NM_AB_FR").isSome)) ∨
        ∃ gc, resp = some gc ∧ ∃ iIso iId iEn iFr,
          resolveIndices gc = (some iIso, some iId, some iEn, some iFr) ∧
          ∃ r ∈ gc.records, matchesR iIso iId iEn iFr r p.1) := by
  cases resp with
  | none => exact ⟨p, h, rfl, fun k _ _ _ => rfl, fun hgc => Or.inl ⟨p, h, rfl, hgc⟩⟩
  | some gc =>
    show ∃ q ∈ d, _
    have h' : p ∈ mergeGc gc d := h
    unfold mergeGc at h'
    split at h'
    · rename_i iIso iId iEn iFr heq
      rcases foldl_mergeRecord_mem _ _ _ h' with ⟨q, hq, hpq, hlook⟩
      refine ⟨q, hq, hpq, hlook, ?_⟩
      intro hgc
      rcases foldl_mergeRecord_gc_origin _ _ _ h' hgc with h1 | h1
      · exact Or.inl h1
      · rcases h1 with ⟨r, hr, hm⟩
        exact Or.inr ⟨gc, rfl, iIso, iId, iEn, iFr, heq, r, hr, hm⟩
    · exact ⟨p, h', rfl, fun k _ _ _ => rfl, fun hgc => Or.inl ⟨p, h', rfl, hgc⟩⟩

theorem lookup_addDerived_harvest {regions : List (String × Option Metadata)}
    {iso : String} {rec1 : Rec}
    (h : (addDerivedFields (harvest regions)).lookup iso = some rec1) :
    ∃ m gd, (iso, some m) ∈ regions ∧ m.general_desc = some gd ∧
      gd.possible_length ≠ [] ∧
      rec1 = fullRec (toString m.country_code) (listMax gd.possible_length) iso := by
  rw [lookup_addDerivedFields] at h
  cases hh : (harvest regions).lookup iso with
  | none => rw [hh] at h; cases h
  | some rh =>
    rw [hh] at h
    have hm := mem_of_lookup_eq_some hh
    rcases harvest_mem hm with ⟨m, gd, hmem, hgd, hpl, hsh⟩
    refine ⟨m, gd, hmem, hgd, hpl, ?_⟩
    have he : rec1 = deriveFields iso rh := (Option.some.inj h).symm
    have hsh' : rh = baseRec (toString m.country_code) (listMax gd.possible_length) := hsh
    rw [he, hsh']
    exact deriveFields_baseRec _ _ _

theorem mem_final_shape {regions : List (String × Option Metadata)}
    {resp : Option GcData} {p : String × Rec} (hp : p ∈ finalOutput regions resp) :
    ∃ (n : Nat) (ml : Nat),
      p.2.lookup "country_code" = some (Value.str (toString n)) ∧
      p.2.lookup "max_length" = some (Value.num ml) ∧
      p.2.lookup "example_format" = some (Value.str (mkExampleFormat (toString n) ml)) ∧
      p.2.lookup "ISO" = some (Value.str p.1) ∧
      p.2.lookup "total_max_digits" = some (Value.num ((toString n).length + ml)) ∧
      p.2.lookup "regex" = some (Value.str (mkRegex (toString n) ml)) := by
  have h1 : p ∈ enrich resp (addDerivedFields (harvest regions)) := mem_sortData hp
  rcases mem_enrich h1 with ⟨q, hq, hpq, hlook, _⟩
  rcases addDerived_mem_shape hq with ⟨n, ml, hsh⟩
  refine ⟨n, ml, ?_, ?_, ?_, ?_, ?_, ?_⟩
  · rw [hlook _ (by decide) (by decide) (by decide), hsh, lookup_fullRec_cc]
  · rw [hlook _ (by decide) (by decide) (by decide), hsh, lookup_fullRec_ml]
  · rw [hlook _ (by decide) (by decide) (by decide), hsh, lookup_fullRec_exf]
  · rw [hlook _ (by decide) (by decide) (by decide), hsh, lookup_fullRec_iso, hpq]
  · rw [hlook _ (by decide) (by decide) (by decide), hsh, lookup_fullRec_tmd]
  · rw [hlook _ (by decide) (by decide) (by decide), hsh, lookup_fullRec_regex]

/-! ### Example-format helpers -/

theorem mkExampleFormat_six (cc : String) :
    mkExampleFormat cc 6 = "+" ++ cc ++ " XXX XXX" := by
  show (("+" ++ cc ++ " ") ++ "XXX ") ++ String.mk (List.replicate (6 - 3) 'X') =
    ("+" ++ cc) ++ " XXX XXX"
  rw [String.append_assoc ("+" ++ cc) " " "XXX ",
    String.append_assoc ("+" ++ cc) (" " ++ "XXX ") (String.mk (List.replicate (6 - 3) 'X'))]
  rfl

theorem mkExampleFormat_three (cc : String) :
    mkExampleFormat cc 3 = "+" ++ cc ++ " XXX" := by
  show ("+" ++ cc ++ " ") ++ String.mk (List.replicate 3 'X') = ("+" ++ cc) ++ " XXX"
  rw [String.append_assoc ("+" ++ cc) " " (String.mk (List.replicate 3 'X'))]
  rfl

/-! ### The claims -/

/-- C4: when the enrichment stage fails (modelled as the absence of a
response, which is what the except handler leaves after a connection error),
the table handed to the sort-and-write step is exactly the pre-enrichment
data — no record gains or loses any field — and the final output the
program writes is just the sorted pre-enrichment table; the pipeline is a
total function, so the run completes normally. -/
theorem C4_failure_keeps_data (regions : List (String × Option Metadata)) (d : Table) :
    enrich none d = d ∧
    finalOutput regions none = sortData (addDerivedFields (harvest regions)) :=
  ⟨rfl, rfl⟩

/-- C5: every record of the final output carries a regex field equal to the
string built from a caret and escaped plus, the country-code digits, the
escaped digit class, and the decimal rendering of max_length between
braces, followed by a dollar sign. -/
theorem C5_regex_field (regions : List (String × Option Metadata)) (resp : Option GcData)
    {p : String × Rec} (hp : p ∈ finalOutput regions resp) :
    ∃ cc ml, p.2.lookup "country_code" = some (Value.str cc) ∧
      p.2.lookup "max_length" = some (Value.num ml) ∧
      p.2.lookup "regex" =
        some (Value.str ("^\\+" ++ cc ++ "\\d\x7b" ++ toString ml ++ "\x7d$")) := by
  rcases mem_final_shape hp with ⟨n, ml, h1, h2, _, _, _, h6⟩
  exact ⟨toString n, ml, h1, h2, h6⟩

/-- C5 witness: the CA record of a concrete run. -/
theorem C5_regex_field_witness :
    ("CA", fullRec "1" 10 "CA") ∈ finalOutput exRegions none ∧
    ∃ cc ml, (fullRec "1" 10 "CA").lookup "country_code" = some (Value.str cc) ∧
      (fullRec "1" 10 "CA").lookup "max_length" = some (Value.num ml) ∧
      (fullRec "1" 10 "CA").lookup "regex" =
        some (Value.str ("^\\+" ++ cc ++ "\\d\x7b" ++ toString ml ++ "\x7d$")) :=
  ⟨by decide, @C5_regex_field exRegions none ("CA", fullRec "1" 10 "CA") (by decide)⟩

/-- C6: every record of the final output has
total_max_digits = length of the country-code string + max_length. -/
theorem C6_total_max_digits (regions : List (String × Option Metadata)) (resp : Option GcData)
    {p : String × Rec} (hp : p ∈ finalOutput regions resp) :
    ∃ cc ml, p.2.lookup "country_code" = some (Value.str cc) ∧
      p.2.lookup "max_length" = some (Value.num ml) ∧
      p.2.lookup "total_max_digits" = some (Value.num (cc.length + ml)) := by
  rcases mem_final_shape hp with ⟨n, ml, h1, h2, _, _, h5, _⟩
  exact ⟨toString n, ml, h1, h2, h5⟩

/-- C6 witness: the GB record of a concrete run. -/
theorem C6_total_max_digits_witness :
    ("GB", fullRec "44" 10 "GB") ∈ finalOutput exRegions none ∧
    ∃ cc ml, (fullRec "44" 10 "GB").lookup "country_code" = some (Value.str cc) ∧
      (fullRec "44" 10 "GB").lookup "max_length" = some (Value.num ml) ∧
      (fullRec "44" 10 "GB").lookup "total_max_digits" = some (Value.num (cc.length + ml)) :=
  ⟨by decide, @C6_total_max_digits exRegions none ("GB", fullRec "44" 10 "GB") (by decide)⟩

/-- C8: the harvesting contract — present and non-empty metadata yields a
record whose max_length is the maximum of the possible-length list, and
absent or empty metadata yields no record — holds for any region list with
distinct region codes. -/
theorem C8_harvest_max (regions : List (String × Option Metadata))
    (hnd : (regions.map Prod.fst).Nodup) : harvestMaxSpec regions := by
  constructor
  · intro r m gd hmem hgd hpl
    refine ⟨baseRec (toString m.country_code) (listMax gd.possible_length),
      listMax gd.possible_length,
      foldl_harvestStep_lookup_good regions hnd hmem hgd hpl [], rfl,
      (listMax_spec hpl).1, (listMax_spec hpl).2⟩
  · intro r md hmem hbad
    exact foldl_harvestStep_lookup_bad regions hnd hmem hbad []

/-- C8 witness: the contract evaluated on a concrete region list. -/
theorem C8_harvest_max_witness : harvestMaxSpec exRegions :=
  C8_harvest_max exRegions (by decide)

/-- C9 counterexample: with a fields list that lacks the ISO column id and
an empty records list, the ISO index is not found by id, yet the four
indices are not set to the hardcoded 19, 0, 4, 5 (the fallback also
requires a non-empty records list, and the merge is skipped instead). -/
theorem C9_counterexample :
    (scanIndices (GcData.mk [some "GC_ID"] []).fields).1 = none ∧
    resolveIndices (GcData.mk [some "GC_ID"] []) ≠ (some 19, some 0, some 4, some 5) := by
  decide

/-- C9 (amended): if the ISO column index is not found by id in the fetched
fields list and the fetched records list is non-empty, the merge uses the
hardcoded positional indices 19, 0, 4 and 5 for all four columns. -/
theorem C9_fallback_indices (gc : GcData) (h1 : (scanIndices gc.fields).1 = none)
    (h2 : gc.records ≠ []) :
    resolveIndices gc = (some 19, some 0, some 4, some 5) := by
  unfold resolveIndices
  rw [if_pos ⟨h1, h2⟩]

/-- C9 witness: the fallback firing on a concrete dataset. -/
theorem C9_fallback_indices_witness :
    (scanIndices (GcData.mk [some "GC_ID"] [[Value.str "FJ"]]).fields).1 = none ∧
    (GcData.mk [some "GC_ID"] [[Value.str "FJ"]]).records ≠ [] ∧
    resolveIndices (GcData.mk [some "GC_ID"] [[Value.str "FJ"]]) =
      (some 19, some 0, some 4, some 5) :=
  ⟨by decide, by decide,
    C9_fallback_indices (GcData.mk [some "GC_ID"] [[Value.str "FJ"]]) (by decide) (by decide)⟩

/-- C10: every harvested record's example_format contains exactly
max_length occurrences of the mask character X — the grouping tiers only
insert spaces and never change the X count. -/
theorem C10_x_count (regions : List (String × Option Metadata))
    {p : String × Rec} (hp : p ∈ harvest regions) :
    ∃ cc ml, p.2.lookup "country_code" = some (Value.str cc) ∧
      p.2.lookup "max_length" = some (Value.num ml) ∧
      ∃ s, p.2.lookup "example_format" = some (Value.str s) ∧ countX s = ml := by
  rcases harvest_mem hp with ⟨m, gd, _, _, _, hsh⟩
  have hsh' : p.2 = baseRec (toString m.country_code) (listMax gd.possible_length) := hsh
  refine ⟨toString m.country_code, listMax gd.possible_length, ?_, ?_, ?_⟩
  · rw [hsh', lookup_baseRec_cc]
  · rw [hsh', lookup_baseRec_ml]
  · refine ⟨mkExampleFormat (toString m.country_code) (listMax gd.possible_length),
      by rw [hsh', lookup_baseRec_exf], ?_⟩
    exact countX_mkExampleFormat (countX_toString m.country_code) _

/-- C10 witness: the US record of a concrete harvest. -/
theorem C10_x_count_witness :
    ("US", baseRec "1" 10) ∈ harvest exRegions ∧
    ∃ cc ml, (baseRec "1" 10).lookup "country_code" = some (Value.str cc) ∧
      (baseRec "1" 10).lookup "max_length" = some (Value.num ml) ∧
      ∃ s, (baseRec "1" 10).lookup "example_format" = some (Value.str s) ∧ countX s = ml :=
  ⟨by decide, @C10_x_count exRegions ("US", baseRec "1" 10) (by decide)⟩

/-- C1: in the sorted output, for any entry appearing before another, either
the numeric value of its country code is strictly smaller, or both carry the
same country-code string and the earlier ISO key is lexicographically
smaller; this makes equal-country_code groups contiguous, orders groups
ascending by numeric country code and orders each group's ISO keys
ascending. The hypotheses — distinct ISO keys, and country-code strings
injective under numeric value — hold of the pipeline's tables, whose
country codes are canonical decimal strings. On the spec's example table
(US and CA with code 1, GB with code 44) the output key order is CA, US,
GB. -/
theorem C1_sort_order (d : Table) (hnd : (d.map Prod.fst).Nodup)
    (hinj : ∀ p ∈ d, ∀ q ∈ d, strToNat (ccOf p) = strToNat (ccOf q) → ccOf p = ccOf q) :
    (sortData d).Pairwise (fun a b =>
      strToNat (ccOf a) < strToNat (ccOf b) ∨ (ccOf a = ccOf b ∧ a.1 < b.1)) ∧
    (sortData (addDerivedFields (harvest exRegions))).map Prod.fst = ["CA", "US", "GB"] := by
  constructor
  · rw [sortData_eq_sortedEntries hnd hinj]
    exact (sortedEntries_spec hnd hinj).imp (fun h => h.1)
  · decide

/-- C1 witness: the ordering property and the example order on a concrete
pipeline table. -/
theorem C1_sort_order_witness :
    (sortData (addDerivedFields (harvest exRegions))).Pairwise (fun a b =>
      strToNat (ccOf a) < strToNat (ccOf b) ∨ (ccOf a = ccOf b ∧ a.1 < b.1)) ∧
    (sortData (addDerivedFields (harvest exRegions))).map Prod.fst = ["CA", "US", "GB"] :=
  C1_sort_order (addDerivedFields (harvest exRegions)) (by decide) (by decide)

/-- C2: every record of the final output has the six base fields
country_code, max_length, example_format, ISO, total_max_digits and regex
(the spec's phrase "all seven base fields" counts this six-field list), and
a GC field can be present only when an enrichment response arrived, its four
column indices resolved, and some fetched row long enough to cover them has
the record's ISO code in its ISO column. -/
theorem C2_field_presence (regions : List (String × Option Metadata)) (resp : Option GcData)
    {p : String × Rec} (hp : p ∈ finalOutput regions resp) :
    fieldPresenceSpec resp p := by
  have h1 : p ∈ enrich resp (addDerivedFields (harvest regions)) := mem_sortData hp
  rcases mem_final_shape hp with ⟨n, ml, hc1, hc2, hc3, hc4, hc5, hc6⟩
  refine ⟨⟨by rw [hc1]; rfl, by rw [hc2]; rfl, by rw [hc3]; rfl, by rw [hc4]; rfl,
    by rw [hc5]; rfl, by rw [hc6]; rfl⟩, ?_⟩
  intro hgc
  rcases mem_enrich h1 with ⟨q, hq, hpq, hlook, horigin⟩
  rcases horigin hgc with h2 | h2
  · rcases h2 with ⟨q', hq', _, hq'gc⟩
    rcases addDerived_mem_shape hq' with ⟨n', ml', hsh⟩
    have hsh' : q'.2 = fullRec (toString n') ml' q'.1 := hsh
    rw [hsh'] at hq'gc
    rcases hq'gc with h | h | h
    · rw [lookup_fullRec_gc_id] at h
      exact absurd h (by decide)
    · rw [lookup_fullRec_gc_en] at h
      exact absurd h (by decide)
    · rw [lookup_fullRec_gc_fr] at h
      exact absurd h (by decide)
  · exact h2

/-- C2 witness: the enriched CA record of a concrete run. -/
theorem C2_field_presence_witness :
    ("CA", fullRec "1" 10 "CA" ++ [("GC_ID", Value.num 77), ("GC_NM_AB_EN", Value.str "Canada"),
      ("GC_NM_AB_FR", Value.str "Canada")]) ∈ finalOutput exRegions (some exGc) ∧
    fieldPresenceSpec (some exGc)
      ("CA", fullRec "1" 10 "CA" ++ [("GC_ID", Value.num 77), ("GC_NM_AB_EN", Value.str "Canada"),
        ("GC_NM_AB_FR", Value.str "Canada")]) :=
  ⟨by decide, @C2_field_presence exRegions (some exGc)
    ("CA", fullRec "1" 10 "CA" ++ [("GC_ID", Value.num 77), ("GC_NM_AB_EN", Value.str "Canada"),
      ("GC_NM_AB_FR", Value.str "Canada")]) (by decide)⟩

/-- C3: with a resolved response, a record of the enriched table carries the
three GC fields exactly when some fetched record whose length covers all
four column indices has the record's ISO code in its ISO column; when
present, all three are set together from such a record's columns; fetched
records matching no harvested key create no new entry; and after a
stage-level failure no record carries any GC field. Region codes are
assumed non-empty, as real ISO codes are (an empty ISO cell is falsy in the
code and never merged). -/
theorem C3_gc_iff (regions : List (String × Option Metadata)) (gc : GcData)
    (iIso iId iEn iFr : Nat)
    (hres : resolveIndices gc = (some iIso, some iId, some iEn, some iFr))
    (hne : ∀ p ∈ regions, p.1 ≠ "") :
    gcEnrichmentSpec regions gc iIso iId iEn iFr := by
  have henr : enrich (some gc) (addDerivedFields (harvest regions)) =
      gc.records.foldl (mergeRecord iIso iId iEn iFr) (addDerivedFields (harvest regions)) := by
    show mergeGc gc _ = _
    unfold mergeGc
    rw [hres]
  refine ⟨?_, enrich_map_fst _ _, ?_⟩
  · intro iso rec1 hl
    rw [henr] at hl
    have hkeys : (gc.records.foldl (mergeRecord iIso iId iEn iFr)
        (addDerivedFields (harvest regions))).map Prod.fst =
        (addDerivedFields (harvest regions)).map Prod.fst :=
      foldl_mergeRecord_map_fst _ _ _ _ _ _
    have hin : iso ∈ (addDerivedFields (harvest regions)).map Prod.fst := by
      rw [← hkeys]
      exact lookup_isSome_iff_mem_fst.mp (by rw [hl]; rfl)
    rcases Option.isSome_iff_exists.mp (lookup_isSome_iff_mem_fst.mpr hin) with ⟨rec0, h0⟩
    rcases lookup_addDerived_harvest h0 with ⟨m, gd, hmem, _, _, hfull⟩
    have hiso : iso ≠ "" := hne _ hmem
    rcases foldl_mergeRecord_lookup hiso gc.records _ _ h0 with ⟨rec1', hl', hcase⟩
    have hr1 : rec1' = rec1 := by
      rw [hl] at hl'
      exact (Option.some.inj hl').symm
    subst hr1
    have htr0 : gcTriple rec0 = (none, none, none) := by rw [hfull]; rfl
    rcases hcase with ⟨heq, hnomatch⟩ | ⟨r, hr, hm, htr⟩
    · rw [htr0] at heq
      simp only [gcTriple, Prod.mk.injEq] at heq
      obtain ⟨e1, e2, e3⟩ := heq
      constructor
      · constructor
        · rintro (h | h | h)
          · rw [e1] at h
            exact absurd h (by decide)
          · rw [e2] at h
            exact absurd h (by decide)
          · rw [e3] at h
            exact absurd h (by decide)
        · rintro ⟨r, hr, hm⟩
          exact absurd hm (hnomatch r hr)
      · rintro (h | h | h)
        · rw [e1] at h
          exact absurd h (by decide)
        · rw [e2] at h
          exact absurd h (by decide)
        · rw [e3] at h
          exact absurd h (by decide)
    · simp only [gcTriple, Prod.mk.injEq] at htr
      obtain ⟨e1, e2, e3⟩ := htr
      constructor
      · constructor
        · intro _
          exact ⟨r, hr, hm⟩
        · intro _
          left
          rw [e1]
          rfl
      · intro _
        exact ⟨r, hr, hm, e1, e2, e3⟩
  · intro iso rec1 hl
    have h0 : (addDerivedFields (harvest regions)).lookup iso = some rec1 := hl
    rcases lookup_addDerived_harvest h0 with ⟨m, gd, _, _, _, hfull⟩
    rw [hfull]
    exact ⟨rfl, rfl, rfl⟩

/-- C3 witness: the contract evaluated on a concrete run whose response has
the four columns in positions 0 to 3 and one row matching CA. -/
theorem C3_gc_iff_witness : gcEnrichmentSpec exRegions exGc 0 1 2 3 :=
  C3_gc_iff exRegions exGc 0 1 2 3 (by decide) (by decide)

/-- C7: every harvested record's example_format is a plus sign, the country
code and a space, followed by the X pattern of its length tier: max_length
X's when max_length is at most 4; the literal group of three X's and a
space followed by max_length minus 3 X's when max_length is at most 7; two
such groups followed by max_length minus 6 X's otherwise. In particular
max_length 6 yields the country-code prefix followed by two groups of three
X's, and max_length 3 yields the prefix followed by three ungrouped X's. -/
theorem C7_example_format (regions : List (String × Option Metadata))
    {p : String × Rec} (hp : p ∈ harvest regions) :
    ∃ cc ml, p.2.lookup "country_code" = some (Value.str cc) ∧
      p.2.lookup "max_length" = some (Value.num ml) ∧
      p.2.lookup "example_format" = some (Value.str (
        if ml ≤ 4 then "+" ++ cc ++ " " ++ String.mk (List.replicate ml 'X')
        else if ml ≤ 7 then "+" ++ cc ++ " " ++ "XXX " ++ String.mk (List.replicate (ml - 3) 'X')
        else "+" ++ cc ++ " " ++ "XXX XXX " ++ String.mk (List.replicate (ml - 6) 'X'))) ∧
      (ml = 6 → p.2.lookup "example_format" = some (Value.str ("+" ++ cc ++ " XXX XXX"))) ∧
      (ml = 3 → p.2.lookup "example_format" = some (Value.str ("+" ++ cc ++ " XXX"))) := by
  rcases harvest_mem hp with ⟨m, gd, _, _, _, hsh⟩
  have hsh' : p.2 = baseRec (toString m.country_code) (listMax gd.possible_length) := hsh
  refine ⟨toString m.country_code, listMax gd.possible_length, ?_, ?_, ?_, ?_, ?_⟩
  · rw [hsh', lookup_baseRec_cc]
  · rw [hsh', lookup_baseRec_ml]
  · rw [hsh', lookup_baseRec_exf]
    rfl
  · intro h6
    rw [hsh', lookup_baseRec_exf, h6, mkExampleFormat_six]
  · intro h3
    rw [hsh', lookup_baseRec_exf, h3, mkExampleFormat_three]

/-- C7 witness: a concrete harvest with max_length 6 and one with 3. -/
theorem C7_example_format_witness :
    ("DE", baseRec "49" 6) ∈ harvest [("DE", some ⟨49, some ⟨[6, 3]⟩⟩)] ∧
    ∃ cc ml, (baseRec "49" 6).lookup "country_code" = some (Value.str cc) ∧
      (baseRec "49" 6).lookup "max_length" = some (Value.num ml) ∧
      (baseRec "49" 6).lookup "example_format" = some (Value.str (
        if ml ≤ 4 then "+" ++ cc ++ " " ++ String.mk (List.replicate ml 'X')
        else if ml ≤ 7 then "+" ++ cc ++ " " ++ "XXX " ++ String.mk (List.replicate (ml - 3) 'X')
        else "+" ++ cc ++ " " ++ "XXX XXX " ++ String.mk (List.replicate (ml - 6) 'X'))) ∧
      (ml = 6 → (baseRec "49" 6).lookup "example_format" =
        some (Value.str ("+" ++ cc ++ " XXX XXX"))) ∧
      (ml = 3 → (baseRec "49" 6).lookup "example_format" =
        some (Value.str ("+" ++ cc ++ " XXX"))) :=
  ⟨by decide, @C7_example_format [("DE", some ⟨49, some ⟨[6, 3]⟩⟩)]
    ("DE", baseRec "49" 6) (by decide)⟩
